import Mathlib

/-!
Shallow embedding of the sequential forecasting core of the
`time_series_tesla` notebook (`final_TSLA.ipynb`):

* the walk-forward one-step-ahead ARIMA evaluation loop
  (`history` / `predictions` / `error_list`),
* the stationarity verdict logic of `test_stationarity`,
* the log / log-difference transforms (`ts_log`, `ts_log_diff`),
* the scalar Kalman recursion driving `kf.filter`,
* the error summary `sum(error_list)/float(len(error_list))`.

The ARIMA fit-and-forecast collaborator is external (statsmodels); it is
treated as an opaque deterministic function of the current history, as the
spec's external-interface section requires.  The Kalman recursion itself
lives in the external `pykalman` library; it is modelled from the spec's
explicit per-observation predict/update equations.
-/

namespace TS

/-- One emitted record of the walk-forward loop: the step index `t`, the
forecast and the true value after the `np.exp` inversion, and the
percentage error printed and accumulated by the loop. -/
structure ForecastStep where
  index : ℕ
  predicted : ℝ
  actual : ℝ
  pctError : ℝ

instance : Inhabited ForecastStep := ⟨⟨0, 0, 0, 0⟩⟩

/-- Body of one successful iteration of the walk-forward loop:
`pred_value = np.exp(pred)`, `original_value = np.exp(original)`,
`error = abs(pred_value - original_value) / original_value * 100`. -/
noncomputable def mkStep (t : ℕ) (pred orig : ℝ) : ForecastStep :=
  let p := Real.exp pred
  let a := Real.exp orig
  { index := t, predicted := p, actual := a, pctError := |p - a| / a * 100 }

/-- The walk-forward loop of the notebook, with the statsmodels
`ARIMA(history, order=(1,1,1)).fit().forecast()` collaborator abstracted as
the deterministic function `fc` of the current history.  Each iteration
forecasts from the current `history`, appends the revealed true value
`original_value = test_arima[t]` to `history`, and emits one step. -/
noncomputable def walkForwardAux (fc : List ℝ → ℝ) : List ℝ → ℕ → List ℝ → List ForecastStep
  | _, _, [] => []
  | history, t, orig :: rest =>
      mkStep t (fc history) orig :: walkForwardAux fc (history ++ [orig]) (t + 1) rest

/-- `history = [x for x in train_arima]`, then the loop over
`t in range(len(test_arima))`. -/
noncomputable def walkForward (fc : List ℝ → ℝ) (train test : List ℝ) : List ForecastStep :=
  walkForwardAux fc train 0 test

/-- The same loop with a fallible fit collaborator: `fc history = none`
models `model.fit` (or `forecast`) raising at that step.  The notebook has
no `try/except`, so a raise aborts the loop at once: the steps produced so
far and the history as it stood are what remain, together with the index of
the failed step.  Note the append `history.append(original_value)` sits
after the fit in the loop body, so a failed fit skips it. -/
noncomputable def walkForwardAuxE (fc : List ℝ → Option ℝ) :
    List ℝ → ℕ → List ℝ → List ForecastStep × List ℝ × Option ℕ
  | history, _, [] => ([], history, none)
  | history, t, orig :: rest =>
      match fc history with
      | none => ([], history, some t)
      | some pred =>
          let r := walkForwardAuxE fc (history ++ [orig]) (t + 1) rest
          (mkStep t pred orig :: r.1, r.2)

/-- Fallible walk-forward evaluation starting from the training history. -/
noncomputable def walkForwardE (fc : List ℝ → Option ℝ) (train test : List ℝ) :
    List ForecastStep × List ℝ × Option ℕ :=
  walkForwardAuxE fc train 0 test

/-- A sample deterministic fit collaborator used in concrete instantiations:
it forecasts the length of the history. -/
def fcLen : List ℝ → ℝ := fun h => (h.length : ℝ)

/-- A fallible fit collaborator that raises as soon as the history holds a
single value: it fails on the very first walk-forward step of a run with a
one-element training series. -/
def fcFail1 : List ℝ → Option ℝ := fun h => if h.length = 1 then none else some 0

/-- A fallible fit collaborator that succeeds while the history holds fewer
than two values and raises afterwards. -/
def fcFail2 : List ℝ → Option ℝ := fun h => if 2 ≤ h.length then none else some 0

/-! ## Stationarity verdict (`test_stationarity`) -/

/-- Verdict printed by `test_stationarity`. -/
inductive Verdict where
  | STATIONARY
  | NON_STATIONARY
  deriving DecidableEq

/-- The verdict logic of `test_stationarity`, translated from the loop

    for key,value in result[4].items():
         if result[0]>value:
            print("The graph is non stationary")
            break
         else:
            print("The graph is stationary")
            break;

over the ADF result: `statistic = result[0]`, `pvalue = result[1]`,
`critvals = result[4]` in insertion order (1%, 5%, 10%).  Both branches
`break` after the first critical value, so only the head of `critvals` is
ever consulted; `pvalue` is bound but never branched on.  `none` when the
critical-value table is empty (nothing is printed). -/
def adfVerdict (statistic _pvalue : ℚ) (critvals : List ℚ) : Option Verdict :=
  match critvals with
  | [] => none
  | v :: _ => if statistic > v then some Verdict.NON_STATIONARY else some Verdict.STATIONARY

/-! ## Transforms (`ts_log`, `ts_log_diff`) and their spec-side inverses -/

/-- `ts_log = np.log(ts)` restricted to well-defined entries: `np.log`
applied elementwise.  On the positive inputs the claims quantify over this
agrees with `np.log` exactly. -/
noncomputable def logT (s : List ℝ) : List ℝ := s.map Real.log

/-- Elementwise `np.log` with its silent floating-point semantics: a value
`x ≤ 0` does not raise, it yields a non-finite entry (`-inf` for `0`, `nan`
for negatives, a `RuntimeWarning` suppressed by
`warnings.simplefilter('ignore')`), modelled as `none`. -/
noncomputable def npLog (x : ℝ) : Option ℝ :=
  if 0 < x then some (Real.log x) else none

/-- The transform step `ts_log = np.log(ts)` as the caller observes it: it
always returns a series (possibly with non-finite entries), never an error.
The error channel is explicit so that the spec's claimed
`NonPositiveValueError` behaviour can be compared against it. -/
noncomputable def logTransform (s : List ℝ) : Except Unit (List (Option ℝ)) :=
  Except.ok (s.map npLog)

/-- `ts_log_diff = (ts_log - ts_log.shift())*100` after `dropna`,
generalized from the notebook's implicit lag `1` (`shift()`) to lag `k`
(`shift(k)` drops the first `k` entries): entry `i` is
`(log s[i+k] - log s[i]) * 100`. -/
noncomputable def tsLogDiffK (s : List ℝ) (k : ℕ) : List ℝ :=
  (List.range (s.length - k)).map fun i =>
    ((logT s).getD (i + k) 0 - (logT s).getD i 0) * 100

/-- The notebook's exact transform: lag 1. -/
noncomputable def tsLogDiff (s : List ℝ) : List ℝ := tsLogDiffK s 1

/-- Modelled from the spec: `difference(series, lag=k)` of the
SeriesTransformer, which drops the first `k` entries; the notebook performs
it only fused with the log and the `*100` scaling (`ts_log_diff`).  Entry
`i` is `s[i+k] - s[i]`. -/
noncomputable def difference (s : List ℝ) (k : ℕ) : List ℝ :=
  (List.range (s.length - k)).map fun i => s.getD (i + k) 0 - s.getD i 0

/-- Modelled from the spec: `scale(series, factor)`, pure linear scaling. -/
noncomputable def scaleT (s : List ℝ) (factor : ℝ) : List ℝ := s.map (· * factor)

/-- Modelled from the spec: the accumulator loop of `invert(difference)`:
given the `k` anchor values already reconstructed in `acc`, each difference
`d` restores the value `d + acc[acc.length - k]`. -/
noncomputable def invertDiffAux (k : ℕ) : List ℝ → List ℝ → List ℝ
  | acc, [] => acc
  | acc, d :: rest => invertDiffAux k (acc ++ [d + acc.getD (acc.length - k) 0]) rest

/-- Modelled from the spec: `invert(difference)`, reconstructing the series
from the `k` dropped anchor values and the lag-`k` differences. -/
noncomputable def invertDifference (anchors diffs : List ℝ) : List ℝ :=
  invertDiffAux anchors.length anchors diffs

/-- Modelled from the spec: `invert(log)`, the elementwise exponential the
notebook itself applies when returning to the price scale (`np.exp`). -/
noncomputable def invertLog (s : List ℝ) : List ℝ := s.map Real.exp

/-! ## Kalman recursion (spec §4.5; `pykalman` is external)

Scalar linear-Gaussian filter over `ℚ` — the recursion uses only field
operations, so the rationals embed it executably.  Parameters as in the
notebook: `transition_matrices=[1]`, `observation_matrices=[1]`,
`transition_covariance=.01`, `observation_covariance=1`,
`initial_state_covariance=1`, `initial_state_mean=df['Close'].values[0]`. -/

/-- Scalar filter state: mean estimate and covariance estimate. -/
structure FilterState where
  mean : ℚ
  cov : ℚ
  deriving Repr, DecidableEq

/-- Modelled from the spec: one predict/update cycle of the
RecursiveStateFilter for observation `z` (spec §4.5 steps 1-2). -/
def kalmanStep (F H Q R : ℚ) (st : FilterState) (z : ℚ) : FilterState :=
  let muPred := F * st.mean
  let pPred := F ^ 2 * st.cov + Q
  let y := z - H * muPred
  let S := H ^ 2 * pPred + R
  let K := H * pPred / S
  { mean := muPred + K * y, cov := (1 - K * H) * pPred }

/-- Modelled from the spec: the full trajectory of filter states, one per
observation in order (spec §4.5 step 3). -/
def kalmanTraj (F H Q R : ℚ) (st : FilterState) : List ℚ → List FilterState
  | [] => []
  | z :: rest =>
      let stNext := kalmanStep F H Q R st z
      stNext :: kalmanTraj F H Q R stNext rest

/-- The notebook's filter instance: `kf.filter(df[['Close']].values)` with
`initial_state_mean = df['Close'].values[0]` — the seed mean is the first
observation of the very series being filtered. -/
def teslaKalman (obs : List ℚ) : List FilterState :=
  kalmanTraj 1 1 (1 / 100) 1 { mean := obs.headD 0, cov := 1 } obs

/-! ## Error summary (`ErrorAccumulator`) -/

/-- The per-pair percentage error of the loop:
`((abs(pred_value - original_value)) / original_value) * 100`. -/
noncomputable def pctErr (p a : ℝ) : ℝ := |p - a| / a * 100

/-- Arithmetic mean, `sum(xs)/float(len(xs))`. -/
noncomputable def amean (xs : List ℝ) : ℝ := xs.sum / xs.length

/-- The error summary over (predicted, actual) pairs: the notebook computes
`sum(error_list)/float(len(error_list))` (which raises `ZeroDivisionError`
on an empty list — the spec's `EmptyInputError`) and
`mean_squared_error(y_true, y_pred)` (mean of squared differences, which
likewise rejects empty input). -/
noncomputable def summarize (pairs : List (ℝ × ℝ)) : Except Unit (ℝ × ℝ) :=
  if pairs.isEmpty then Except.error ()
  else Except.ok
    (amean (pairs.map fun pr => pctErr pr.1 pr.2),
     amean (pairs.map fun pr => (pr.1 - pr.2) ^ 2))

/-! ## Helper lemmas -/

theorem walkForwardAux_length (fc : List ℝ → ℝ) :
    ∀ (test history : List ℝ) (t : ℕ),
      (walkForwardAux fc history t test).length = test.length := by
  intro test
  induction test with
  | nil => intro history t; rfl
  | cons orig rest ih =>
      intro history t
      simp [walkForwardAux, ih]

theorem walkForwardAux_get? (fc : List ℝ → ℝ) :
    ∀ (test history : List ℝ) (t0 i : ℕ),
      (walkForwardAux fc history t0 test).get? i =
        (test.get? i).map fun orig =>
          mkStep (t0 + i) (fc (history ++ test.take i)) orig := by
  intro test
  induction test with
  | nil => intro history t0 i; simp [walkForwardAux]
  | cons orig rest ih =>
      intro history t0 i
      cases i with
      | zero => simp [walkForwardAux]
      | succ j =>
          simp only [walkForwardAux, List.get?_cons_succ, List.take_succ_cons]
          rw [ih, show t0 + (j + 1) = t0 + 1 + j from by omega]
          simp

/-- Closed form of the walk-forward output at position `t`: the step emitted
for test index `t` forecasts from `train ++ test.take t` and reveals
`test[t]`. -/
theorem walkForward_get? (fc : List ℝ → ℝ) (train test : List ℝ) (t : ℕ) :
    (walkForward fc train test).get? t =
      (test.get? t).map fun orig => mkStep t (fc (train ++ test.take t)) orig := by
  have h := walkForwardAux_get? fc test train 0 t
  simpa [walkForward] using h


theorem kalmanStep_cov_nonneg (Q R : ℚ) (hQ : 0 ≤ Q) (hR : 0 ≤ R)
    (st : FilterState) (hst : 0 ≤ st.cov) (z : ℚ) :
    0 ≤ (kalmanStep 1 1 Q R st z).cov := by
  have hP : 0 ≤ st.cov + Q := by linarith
  simp only [kalmanStep, one_pow, one_mul, mul_one]
  by_cases hS : st.cov + Q + R = 0
  · have hP0 : st.cov + Q = 0 := by linarith
    simp [hP0]
  · have hSpos : 0 < st.cov + Q + R := lt_of_le_of_ne (by linarith) (Ne.symm hS)
    have h1 : 1 - (st.cov + Q) / (st.cov + Q + R) = R / (st.cov + Q + R) := by
      field_simp
    rw [h1]
    exact mul_nonneg (div_nonneg hR (le_of_lt hSpos)) hP

theorem kalmanTraj_cov_nonneg (Q R : ℚ) (hQ : 0 ≤ Q) (hR : 0 ≤ R) :
    ∀ (obs : List ℚ) (st : FilterState), 0 ≤ st.cov →
      ∀ s ∈ kalmanTraj 1 1 Q R st obs, 0 ≤ s.cov := by
  intro obs
  induction obs with
  | nil => intro st h s hs; simp [kalmanTraj] at hs
  | cons z rest ih =>
      intro st h s hs
      simp only [kalmanTraj, List.mem_cons] at hs
      rcases hs with rfl | hs
      · exact kalmanStep_cov_nonneg Q R hQ hR st h z
      · exact ih _ (kalmanStep_cov_nonneg Q R hQ hR st h z) s hs

/-! ## Claim theorems -/

/-- Claim C3 (refuted; code bug): the verdict printed by
`test_stationarity` is NOT a pure function of the p-value — it is decided
by comparing the ADF statistic with the FIRST critical value, breaking out
of the loop in both branches, and the p-value is bound but never branched
on.  This contradicts the notebook's own markdown rule ("p value <= 0.05:
Rejects the Null Hypothesis (H0), the data is stationary").  At statistic
`-3`, p-value `0.04` and critical values `(1%, 5%, 10%) =
(-3.43, -2.86, -2.57)` — a statistically consistent ADF outcome — the
claim demands STATIONARY since `0.04 ≤ 0.05`, but the code prints "The
graph is non stationary" because `-3 > -3.43`. -/
theorem c3_verdict_not_pvalue_rule :
    adfVerdict (-3) (4 / 100) [-343 / 100, -286 / 100, -257 / 100] =
        some Verdict.NON_STATIONARY ∧
    (4 / 100 : ℚ) ≤ 5 / 100 ∧
    ¬(adfVerdict (-3) (4 / 100) [-343 / 100, -286 / 100, -257 / 100] =
        some Verdict.STATIONARY ↔ (4 / 100 : ℚ) ≤ 5 / 100) := by
  refine ⟨?_, by norm_num, ?_⟩
  · rw [adfVerdict, if_pos]
    norm_num
  · intro hiff
    have h1 : adfVerdict (-3) (4 / 100) [-343 / 100, -286 / 100, -257 / 100] =
        some Verdict.STATIONARY := hiff.mpr (by norm_num)
    rw [adfVerdict, if_pos (by norm_num)] at h1
    exact absurd h1 (by simp)

/-- Claim C5: for every observation sequence and all non-negative
parameters `P0`, `Q`, `R` (with the notebook's `F = H = 1`), the
covariance estimate of the recursive state filter stays non-negative at
every state of the emitted trajectory: the updated covariance is
`(R / S) * P_pred`, and when the innovation variance `S` vanishes the gain
degenerates and the covariance is the non-negative `P_pred` itself. -/
theorem c5_kalman_cov_nonneg (obs : List ℚ) (mu0 P0 Q R : ℚ)
    (hP0 : 0 ≤ P0) (hQ : 0 ≤ Q) (hR : 0 ≤ R) :
    ∀ s ∈ kalmanTraj 1 1 Q R { mean := mu0, cov := P0 } obs, 0 ≤ s.cov :=
  kalmanTraj_cov_nonneg Q R hQ hR obs _ hP0

theorem c5_kalman_cov_nonneg_witness :
    0 ≤ (kalmanStep 1 1 (1 / 100) 1 { mean := 10, cov := 1 } 10).cov :=
  c5_kalman_cov_nonneg [10, 10] 10 1 (1 / 100) 1 (by norm_num) (by norm_num)
    (by norm_num) _ (by simp [kalmanTraj])

/-- Claim C10: the notebook seeds the filter with
`initial_state_mean = df['Close'].values[0]` (and fixed `P0 = 1`,
`Q = 0.01`, `R = 1`), so for every non-empty observation sequence the first
emitted state mean equals the first observation exactly: the first
innovation `y = z0 - mu_pred` vanishes. -/
theorem c10_kalman_first_mean (obs : List ℚ) (z : ℚ) (rest : List ℚ)
    (h : obs = z :: rest) :
    ((teslaKalman obs).head?).map FilterState.mean = some z := by
  subst h
  simp [teslaKalman, kalmanTraj, kalmanStep]

theorem c10_kalman_first_mean_witness :
    ((teslaKalman [10, 11]).head?).map FilterState.mean = some 10 :=
  c10_kalman_first_mean [10, 11] 10 [11] rfl

/-- Claim C9: the error summary is a pure function that fails on an empty
sequence of (predicted, actual) pairs — `sum(error_list)/float(len(error_list))`
raises `ZeroDivisionError`, the spec's `EmptyInputError` — and on every
non-empty sequence returns the arithmetic mean of the per-pair percentage
errors together with the mean squared error. -/
theorem c9_summarize_spec :
    summarize ([] : List (ℝ × ℝ)) = Except.error () ∧
    ∀ pairs : List (ℝ × ℝ), pairs ≠ [] →
      summarize pairs =
        Except.ok
          (amean (pairs.map fun pr => pctErr pr.1 pr.2),
           amean (pairs.map fun pr => (pr.1 - pr.2) ^ 2)) := by
  refine ⟨rfl, ?_⟩
  intro pairs hp
  cases pairs with
  | nil => exact absurd rfl hp
  | cons a l => rfl

theorem c9_summarize_spec_witness :
    summarize [((2 : ℝ), 1)] =
      Except.ok
        (amean ([((2 : ℝ), 1)].map fun pr => pctErr pr.1 pr.2),
         amean ([((2 : ℝ), 1)].map fun pr => (pr.1 - pr.2) ^ 2)) :=
  c9_summarize_spec.2 [((2 : ℝ), 1)] (by simp)

/-- Claim C8 (counterexample): `ts_log = np.log(ts)` does not fail on a
non-positive value — with `warnings.simplefilter('ignore')` in force it
silently returns a series holding a non-finite entry.  At input `[-1]` the
transform returns `ok` of a series with a NaN entry, not an error,
although `-1 ≤ 0`. -/
theorem c8_counterexample :
    logTransform [(-1 : ℝ)] = Except.ok [none] ∧ ((-1 : ℝ) ≤ 0) := by
  constructor
  · have h : npLog (-1 : ℝ) = none := by
      simp only [npLog]
      rw [if_neg]
      norm_num
    simp [logTransform, h]
  · norm_num

theorem map_npLog_of_pos (s : List ℝ) (h : ∀ x ∈ s, 0 < x) :
    s.map npLog = s.map fun x => some (Real.log x) := by
  induction s with
  | nil => rfl
  | cons a l ih =>
      simp only [List.map_cons]
      have ha : npLog a = some (Real.log a) := by
        simp only [npLog]
        rw [if_pos (h a (List.mem_cons_self a l))]
      rw [ha, ih fun x hx => h x (List.mem_cons_of_mem a hx)]

/-- Claim C8 (amended): the log transform never surfaces an error — it
always returns a series.  On a series of positive values it is the
element-wise natural logarithm; non-positive values silently become
non-finite entries instead of raising a `NonPositiveValueError`. -/
theorem c8_log_amended (s : List ℝ) :
    (∃ l, logTransform s = Except.ok l) ∧
    ((∀ x ∈ s, 0 < x) →
      logTransform s = Except.ok (s.map fun x => some (Real.log x))) := by
  constructor
  · exact ⟨_, rfl⟩
  · intro h
    simp only [logTransform, Except.ok.injEq]
    exact map_npLog_of_pos s h

theorem c8_log_amended_witness :
    (∃ l, logTransform [(1 : ℝ)] = Except.ok l) ∧
    logTransform [(1 : ℝ)] = Except.ok ([(1 : ℝ)].map fun x => some (Real.log x)) :=
  ⟨(c8_log_amended [1]).1, (c8_log_amended [1]).2 (by
    intro x hx
    rw [List.mem_singleton] at hx
    rw [hx]
    norm_num)⟩

theorem mkStep_index (t : ℕ) (p o : ℝ) : (mkStep t p o).index = t := rfl

theorem mkStep_predicted (t : ℕ) (p o : ℝ) : (mkStep t p o).predicted = Real.exp p := rfl

theorem mkStep_actual (t : ℕ) (p o : ℝ) : (mkStep t p o).actual = Real.exp o := rfl

theorem mkStep_pctError (t : ℕ) (p o : ℝ) :
    (mkStep t p o).pctError = |Real.exp p - Real.exp o| / Real.exp o * 100 := rfl

theorem take_eq_of_agree (a b : List ℝ) (t : ℕ)
    (h : ∀ i, i < t → a.get? i = b.get? i) : a.take t = b.take t := by
  apply List.ext_get?
  intro n
  by_cases hn : n < t
  · rw [List.get?_take hn, List.get?_take hn, h n hn]
  · have ha : (a.take t).get? n = none := by
      rw [List.get?_eq_none, List.length_take]
      omega
    have hb : (b.take t).get? n = none := by
      rw [List.get?_eq_none, List.length_take]
      omega
    rw [ha, hb]

theorem walkForward_index (fc : List ℝ → ℝ) (train test : List ℝ) (m : ℕ)
    (hm : m < test.length) :
    ((walkForward fc train test).getD m default).index = m := by
  have h := walkForward_get? fc train test m
  rw [List.get?_eq_get hm] at h
  rw [List.getD_eq_getD_get?, h]
  rfl

/-- Claim C1: no lookahead.  The forecast emitted at step `t` is unchanged
when every test-series entry at index `≥ t` is replaced (same length,
agreement below `t`), because step `t` forecasts only from
`history = train ++ test.take t`; and the steps are emitted in strictly
increasing `index` order. -/
theorem c1_no_lookahead (fc : List ℝ → ℝ) (train test test2 : List ℝ) (t : ℕ)
    (hlen : test2.length = test.length)
    (hagree : ∀ i, i < t → test2.get? i = test.get? i) :
    ((walkForward fc train test2).get? t).map ForecastStep.predicted =
      ((walkForward fc train test).get? t).map ForecastStep.predicted ∧
    ∀ i j : ℕ, i < j → j < (walkForward fc train test).length →
      ((walkForward fc train test).getD i default).index <
        ((walkForward fc train test).getD j default).index := by
  constructor
  · have htake : test2.take t = test.take t := take_eq_of_agree test2 test t hagree
    rw [walkForward_get?, walkForward_get?, htake]
    cases hc : test.get? t with
    | none =>
        have h2 : test2.get? t = none := by
          rw [List.get?_eq_none] at hc ⊢
          omega
        rw [h2]
    | some v =>
        have ht : t < test.length := by
          by_contra hcon
          rw [List.get?_eq_none.mpr (by omega)] at hc
          exact Option.noConfusion hc
        have ht2 : t < test2.length := by omega
        rw [List.get?_eq_get ht2]
        simp [mkStep_predicted]
  · intro i j hij hj
    have hlen2 : (walkForward fc train test).length = test.length :=
      walkForwardAux_length fc test train 0
    rw [walkForward_index fc train test i (by omega),
      walkForward_index fc train test j (by omega)]
    exact hij

theorem c1_no_lookahead_witness :
    ((walkForward fcLen [0] [0, 2]).get? 1).map ForecastStep.predicted =
      ((walkForward fcLen [0] [0, 1]).get? 1).map ForecastStep.predicted ∧
    ∀ i j : ℕ, i < j → j < (walkForward fcLen [0] [0, 1]).length →
      ((walkForward fcLen [0] [0, 1]).getD i default).index <
        ((walkForward fcLen [0] [0, 1]).getD j default).index :=
  c1_no_lookahead fcLen [0] [0, 1] [0, 2] 1 rfl (by
    intro i hi
    have hi0 : i = 0 := by omega
    rw [hi0]
    rfl)

/-- Claim C2: the history invariant of the walk-forward loop.  At the fit
for step `t` the history is exactly `train ++ test.take t` (all training
values followed by the revealed test values for steps `0..t-1`), of length
`train.length + t`; the history grows by a single append per step; and
exactly one `ForecastStep` is produced per test index, the step stored at
position `t` carrying index `t`. -/
theorem c2_history_invariant (fc : List ℝ → ℝ) (train test : List ℝ) (t : ℕ)
    (ht : t < test.length) :
    (walkForward fc train test).get? t =
      some (mkStep t (fc (train ++ test.take t)) (test.getD t 0)) ∧
    (train ++ test.take t).length = train.length + t ∧
    train ++ test.take (t + 1) = (train ++ test.take t) ++ [test.getD t 0] ∧
    (walkForward fc train test).length = test.length ∧
    ((walkForward fc train test).getD t default).index = t := by
  refine ⟨?_, ?_, ?_, walkForwardAux_length fc test train 0,
    walkForward_index fc train test t ht⟩
  · rw [walkForward_get?, List.get?_eq_get ht]
    simp [List.getD_eq_getD_get?, List.get?_eq_get ht, List.getElem?_eq_getElem ht]
  · rw [List.length_append, List.length_take]
    omega
  · rw [List.take_succ, ← List.append_assoc]
    congr 1
    rw [← List.get?_eq_getElem?, List.get?_eq_get ht]
    simp [List.getD_eq_getD_get?, List.get?_eq_get ht, List.getElem?_eq_getElem ht]

theorem c2_history_invariant_witness :
    (walkForward fcLen [5] [7]).get? 0 =
      some (mkStep 0 (fcLen ([5] ++ [7].take 0)) ([7].getD 0 0)) ∧
    (([5] : List ℝ) ++ [7].take 0).length = [(5 : ℝ)].length + 0 ∧
    ([5] : List ℝ) ++ [7].take (0 + 1) = (([5] : List ℝ) ++ [7].take 0) ++ [[7].getD 0 0] ∧
    (walkForward fcLen [5] [7]).length = [(7 : ℝ)].length ∧
    ((walkForward fcLen [5] [7]).getD 0 default).index = 0 :=
  c2_history_invariant fcLen [5] [7] 0 (by norm_num)

/-- Claim C6: the per-step error formula.  Every emitted step carries the
forecast and the true value expressed on the original price scale by
`np.exp` (inverting the upstream log transform), and its percentage error
equals `|predicted - actual| / actual * 100`, which is non-negative. -/
theorem c6_pct_error_formula (fc : List ℝ → ℝ) (train test : List ℝ) (t : ℕ)
    (ht : t < test.length) :
    ∃ s, (walkForward fc train test).get? t = some s ∧
      s.predicted = Real.exp (fc (train ++ test.take t)) ∧
      s.actual = Real.exp (test.getD t 0) ∧
      s.pctError = |s.predicted - s.actual| / s.actual * 100 ∧
      0 ≤ s.pctError := by
  refine ⟨mkStep t (fc (train ++ test.take t)) (test.getD t 0), ?_,
    mkStep_predicted _ _ _, mkStep_actual _ _ _, rfl, ?_⟩
  · rw [walkForward_get?, List.get?_eq_get ht]
    simp [List.getD_eq_getD_get?, List.get?_eq_get ht, List.getElem?_eq_getElem ht]
  · rw [mkStep_pctError]
    have ha : (0 : ℝ) < Real.exp (test.getD t 0) := Real.exp_pos _
    have h1 : (0 : ℝ) ≤ |Real.exp (fc (train ++ test.take t)) - Real.exp (test.getD t 0)| :=
      abs_nonneg _
    positivity

theorem c6_pct_error_formula_witness :
    ∃ s, (walkForward fcLen [0] [0]).get? 0 = some s ∧
      s.predicted = Real.exp (fcLen ([0] ++ [0].take 0)) ∧
      s.actual = Real.exp ([0].getD 0 0) ∧
      s.pctError = |s.predicted - s.actual| / s.actual * 100 ∧
      0 ≤ s.pctError :=
  c6_pct_error_formula fcLen [0] [0] 0 (by norm_num)

theorem walkForwardAuxE_length_of_success (fc : List ℝ → Option ℝ) :
    ∀ (test history : List ℝ) (t0 : ℕ),
      (∀ i, i < test.length → (fc (history ++ test.take i)).isSome) →
      (walkForwardAuxE fc history t0 test).1.length = test.length := by
  intro test
  induction test with
  | nil => intro history t0 _; rfl
  | cons orig rest ih =>
      intro history t0 h
      have h0 : (fc history).isSome := by
        have := h 0 (by simp)
        simpa using this
      obtain ⟨p, hp⟩ := Option.isSome_iff_exists.mp h0
      have hrest : ∀ i, i < rest.length → (fc ((history ++ [orig]) ++ rest.take i)).isSome := by
        intro i hi
        have hmem := h (i + 1) (by simp only [List.length_cons]; omega)
        rw [List.take_succ_cons, List.append_cons] at hmem
        exact hmem
      simp [walkForwardAuxE, hp, ih (history ++ [orig]) (t0 + 1) hrest]

theorem walkForwardAuxE_spec (fc : List ℝ → Option ℝ) :
    ∀ (t : ℕ) (test history : List ℝ) (t0 : ℕ),
      t < test.length →
      fc (history ++ test.take t) = none →
      (∀ i, i < t → (fc (history ++ test.take i)).isSome) →
      walkForwardAuxE fc history t0 test =
        ((walkForwardAuxE fc history t0 (test.take t)).1,
          history ++ test.take t, some (t0 + t)) := by
  intro t
  induction t with
  | zero =>
      intro test history t0 hlt hfail _
      cases test with
      | nil => simp at hlt
      | cons orig rest =>
          simp only [List.take_zero, List.append_nil] at hfail
          simp [walkForwardAuxE, hfail]
  | succ j ih =>
      intro test history t0 hlt hfail hsucc
      cases test with
      | nil => simp at hlt
      | cons orig rest =>
          have h0 : (fc history).isSome := by
            have := hsucc 0 (Nat.succ_pos j)
            simpa using this
          obtain ⟨p, hp⟩ := Option.isSome_iff_exists.mp h0
          have hlt2 : j < rest.length := by simpa using hlt
          have hfail2 : fc ((history ++ [orig]) ++ rest.take j) = none := by
            rw [List.take_succ_cons, List.append_cons] at hfail
            exact hfail
          have hsucc2 : ∀ i, i < j → (fc ((history ++ [orig]) ++ rest.take i)).isSome := by
            intro i hi
            have hmem := hsucc (i + 1) (by omega)
            rw [List.take_succ_cons, List.append_cons] at hmem
            exact hmem
          have hrec := ih rest (history ++ [orig]) (t0 + 1) hlt2 hfail2 hsucc2
          have hgoal : walkForwardAuxE fc history t0 (orig :: rest) =
              (mkStep t0 p orig :: (walkForwardAuxE fc (history ++ [orig]) (t0 + 1) rest).1,
               (walkForwardAuxE fc (history ++ [orig]) (t0 + 1) rest).2) := by
            simp [walkForwardAuxE, hp]
          have hunfold : walkForwardAuxE fc history t0 (orig :: rest.take j) =
              (mkStep t0 p orig ::
                 (walkForwardAuxE fc (history ++ [orig]) (t0 + 1) (rest.take j)).1,
               (walkForwardAuxE fc (history ++ [orig]) (t0 + 1) (rest.take j)).2) := by
            simp [walkForwardAuxE, hp]
          rw [hgoal, hrec, List.take_succ_cons, hunfold]
          have harith : t0 + 1 + j = t0 + (j + 1) := by omega
          rw [harith]
          simp

/-- Claim C7 (counterexample): when the fit raises at step `t`, the true
value `test_series[t]` is NOT appended to history, contrary to the claim.
With a collaborator that fails on a one-element history, training series
`[0]` and test series `[0]`, the run aborts at step `0` with history still
`[0]` — not `[0] ++ [0]` as the claimed unconditional reveal would give. -/
theorem c7_counterexample :
    (walkForwardE fcFail1 [0] [0]).2.2 = some 0 ∧
    (walkForwardE fcFail1 [0] [0]).2.1 = [0] ∧
    ([0] : List ℝ) ≠ [0] ++ [(0 : ℝ)] := by
  refine ⟨rfl, rfl, ?_⟩
  intro h
  have := congrArg List.length h
  simp at this

/-- Claim C7 (amended): if the fit for step `t` fails (after succeeding on
steps `0..t-1`), the evaluation aborts identifying step `t`, the
`ForecastStep`s already produced for steps `0..t-1` remain retrievable
unchanged (they equal those of a run on the first `t` test values), and
there are exactly `t` of them — but `test_series[t]` is NOT appended:
the abort happens at the fit, before the reveal, so the final history is
still `train ++ test.take t`. -/
theorem c7_abort_policy (fc : List ℝ → Option ℝ) (train test : List ℝ) (t : ℕ)
    (ht : t < test.length)
    (hfail : fc (train ++ test.take t) = none)
    (hsucc : ∀ i, i < t → (fc (train ++ test.take i)).isSome) :
    (walkForwardE fc train test).2.2 = some t ∧
    (walkForwardE fc train test).2.1 = train ++ test.take t ∧
    (walkForwardE fc train test).1.length = t ∧
    (walkForwardE fc train test).1 = (walkForwardE fc train (test.take t)).1 := by
  have hs := walkForwardAuxE_spec fc t test train 0 ht hfail hsucc
  have hlen : (test.take t).length = t := by
    rw [List.length_take]
    omega
  have hsucc2 : ∀ i, i < (test.take t).length → (fc (train ++ (test.take t).take i)).isSome := by
    intro i hi
    rw [hlen] at hi
    rw [List.take_take, min_eq_left (by omega)]
    exact hsucc i hi
  refine ⟨?_, ?_, ?_, ?_⟩
  · rw [walkForwardE, hs]
    simp
  · rw [walkForwardE, hs]
  · rw [walkForwardE, hs]
    show (walkForwardAuxE fc train 0 (test.take t)).1.length = t
    rw [walkForwardAuxE_length_of_success fc (test.take t) train 0 hsucc2, hlen]
  · rw [walkForwardE, hs, walkForwardE]

theorem c7_abort_policy_witness :
    (walkForwardE fcFail2 [0] [0, 0]).2.2 = some 1 ∧
    (walkForwardE fcFail2 [0] [0, 0]).2.1 = [0] ++ [(0 : ℝ), 0].take 1 ∧
    (walkForwardE fcFail2 [0] [0, 0]).1.length = 1 ∧
    (walkForwardE fcFail2 [0] [0, 0]).1 = (walkForwardE fcFail2 [0] ([(0 : ℝ), 0].take 1)).1 :=
  c7_abort_policy fcFail2 [0] [0, 0] 1 (by norm_num)
    (by norm_num [fcFail2])
    (by
      intro i hi
      have hi0 : i = 0 := by omega
      rw [hi0]
      norm_num [fcFail2])

theorem invertDiffAux_spec (l : List ℝ) (k : ℕ) (hk : 0 < k) (hkl : k ≤ l.length) :
    ∀ (m j : ℕ), j + m = l.length - k →
      invertDiffAux k (l.take (k + j))
        ((List.range m).map fun i => l.getD (i + j + k) 0 - l.getD (i + j) 0) = l := by
  intro m
  induction m with
  | zero =>
      intro j hj
      have hkj : k + j = l.length := by omega
      rw [List.range_zero, List.map_nil, invertDiffAux, hkj, List.take_length]
  | succ m ih =>
      intro j hj
      have hkj : k + j < l.length := by omega
      rw [List.range_succ_eq_map, List.map_cons, List.map_map, invertDiffAux]
      have hlen : (l.take (k + j)).length = k + j := by
        rw [List.length_take]
        omega
      have hgd : (l.take (k + j)).getD ((l.take (k + j)).length - k) 0 = l.getD j 0 := by
        rw [hlen, show k + j - k = j from by omega, List.getD_eq_getD_get?,
          List.getD_eq_getD_get?, List.get?_take (show j < k + j by omega)]
      rw [hgd]
      have hd : l.getD (0 + j + k) 0 - l.getD (0 + j) 0 + l.getD j 0 = l.getD (k + j) 0 := by
        rw [show 0 + j + k = k + j from by omega, show 0 + j = j from by omega]
        ring
      rw [hd]
      have hacc : l.take (k + j) ++ [l.getD (k + j) 0] = l.take (k + j + 1) := by
        rw [List.take_succ]
        congr 1
        simp [List.getD_eq_getD_get?, List.get?_eq_get hkj, List.getElem?_eq_getElem hkj]
      rw [hacc]
      have hfun : ((fun i => l.getD (i + j + k) 0 - l.getD (i + j) 0) ∘ Nat.succ) =
          fun i => l.getD (i + (j + 1) + k) 0 - l.getD (i + (j + 1)) 0 := by
        funext i
        simp only [Function.comp_apply]
        rw [show Nat.succ i + j + k = i + (j + 1) + k from by omega,
          show Nat.succ i + j = i + (j + 1) from by omega]
      rw [hfun, show k + j + 1 = k + (j + 1) from by omega]
      exact ih (j + 1) (by omega)

theorem invertDifference_difference (l : List ℝ) (k : ℕ) (hk : 0 < k) :
    invertDifference (l.take k) (difference l k) = l := by
  by_cases hkl : l.length ≤ k
  · have hdiff : difference l k = [] := by
      rw [difference, show l.length - k = 0 from by omega, List.range_zero, List.map_nil]
    rw [hdiff, invertDifference, invertDiffAux]
    exact List.take_of_length_le hkl
  · push_neg at hkl
    have hanch : (l.take k).length = k := by
      rw [List.length_take]
      omega
    rw [invertDifference, hanch]
    have h0 := invertDiffAux_spec l k hk (le_of_lt hkl) (l.length - k) 0 (by omega)
    rw [difference]
    simpa using h0

theorem map_exp_log : ∀ s : List ℝ, (∀ x ∈ s, 0 < x) →
    s.map (Real.exp ∘ Real.log) = s := by
  intro s
  induction s with
  | nil => intro _; rfl
  | cons a l ih =>
      intro h
      rw [List.map_cons]
      simp only [Function.comp_apply]
      rw [Real.exp_log (h a (List.mem_cons_self a l)),
        ih fun x hx => h x (List.mem_cons_of_mem a hx)]

theorem invertLog_logT (s : List ℝ) (h : ∀ x ∈ s, 0 < x) : invertLog (logT s) = s := by
  rw [invertLog, logT, List.map_map]
  exact map_exp_log s h

theorem scaleT_tsLogDiffK (s : List ℝ) (k : ℕ) :
    scaleT (tsLogDiffK s k) (1 / 100) = difference (logT s) k := by
  rw [scaleT, tsLogDiffK, difference, List.map_map]
  have hlen : (logT s).length = s.length := by rw [logT, List.length_map]
  rw [hlen]
  apply List.map_congr_left
  intro i _
  simp only [Function.comp_apply]
  ring

/-- Claim C4: the transform round trip.  For every positive series `s` and
lag `k ≥ 1`, the log-difference output has length `n - k`, and undoing the
`*100` scaling (dividing by `100`), inverting the differencing from the
`k` dropped log-scale anchor values and then inverting the log by
exponentiation reconstructs the original series exactly (real arithmetic;
the floating-point implementation matches within tolerance). -/
theorem c4_roundtrip (s : List ℝ) (k : ℕ) (hk : 0 < k) (hpos : ∀ x ∈ s, 0 < x) :
    (tsLogDiffK s k).length = s.length - k ∧
    invertLog (invertDifference ((logT s).take k)
      (scaleT (tsLogDiffK s k) (1 / 100))) = s := by
  constructor
  · rw [tsLogDiffK, List.length_map, List.length_range]
  · rw [scaleT_tsLogDiffK, invertDifference_difference (logT s) k hk]
    exact invertLog_logT s hpos

theorem c4_roundtrip_witness :
    (tsLogDiffK [(1 : ℝ), 1] 1).length = [(1 : ℝ), 1].length - 1 ∧
    invertLog (invertDifference ((logT [(1 : ℝ), 1]).take 1)
      (scaleT (tsLogDiffK [(1 : ℝ), 1] 1) (1 / 100))) = [(1 : ℝ), 1] :=
  c4_roundtrip [1, 1] 1 (by norm_num) (by
    intro x hx
    simp only [List.mem_cons, List.not_mem_nil, or_false] at hx
    rcases hx with h | h <;> (rw [h]; norm_num))

end TS
